import Mathlib

/-!
Verification of the Plonky3 KoalaBear AVX2 Poseidon2 internal diagonal layer
(src/koala-bear/src/x86_64_avx2/poseidon2.rs) and the duplex-sponge
Fiat-Shamir challenger (src/challenger/src/duplex_challenger.rs).

Machine lanes are modelled as integers; 32-bit wrap-around is made explicit
where the AVX2 instructions can wrap.  The lane primitives imported from
p3_monty_31 (add, sub, halve, multiply by 2^-n, signed add) are not part of
the two source files and are modelled from the specification.
-/

namespace KoalaBear

/-- The KoalaBear prime P = 127 * 2^24 + 1. -/
def P : ℤ := 2130706433

/-- Interpret the low 32 bits of an integer as a signed 32-bit value
(the meaning of an AVX2 lane after a possibly wrapping `vpsubd`). -/
def asSigned32 (u : ℤ) : ℤ :=
  if u % 2 ^ 32 < 2 ^ 31 then u % 2 ^ 32 else u % 2 ^ 32 - 2 ^ 32

/-- Effect of `_mm256_srli_epi32::<8>` on a canonical (hence nonnegative, < 2^32) lane:
logical shift right by 8. -/
def srli8 (x : ℤ) : ℤ := x / 2 ^ 8

/-- Per 32-bit word effect of `_mm256_maddubs_epi16(input, [127; 8])`: the
byte pattern of the constant word is [127, 0, 0, 0], so the low 16-bit lane
holds 127 * (low byte of input) (no saturation since 127 * 255 < 2^15) and
the high 16-bit lane is 0. -/
def maddubs127 (x : ℤ) : ℤ := 127 * (x % 2 ^ 8)

/-- Per 32-bit word effect of `_mm256_bslli_epi128::<2>` on a word whose
high 16 bits are zero (so no byte crosses into this word with a nonzero
value): shift left by 16 bits, wrapping at 32 bits. -/
def bslli2 (x : ℤ) : ℤ := x * 2 ^ 16 % 2 ^ 32

/-- Source function `mul_2_exp_neg_8`: hi = input >> 8,
lo = maddubs(input, [127;8]), lo_shft = bslli2(lo), result = hi - lo_shft
(wrapping 32-bit subtraction, read as a signed lane). -/
def mul_2_exp_neg_8 (x : ℤ) : ℤ :=
  asSigned32 (srli8 x - bslli2 (maddubs127 x))

/-- Source function `mul_neg_2_exp_neg_8`: same values, result =
lo_shft - hi. -/
def mul_neg_2_exp_neg_8 (x : ℤ) : ℤ :=
  asSigned32 (bslli2 (maddubs127 x) - srli8 x)

/-- For canonical input, `mul_2_exp_neg_8` computes exactly
input >> 8 - (127 * (input & 0xFF)) << 16 (no 32-bit wrap occurs). -/
lemma mul_2_exp_neg_8_val (x : ℤ) (hx0 : 0 ≤ x) (hxP : x < P) :
    mul_2_exp_neg_8 x = x / 2 ^ 8 - 127 * (x % 2 ^ 8) * 2 ^ 16 := by
  have hb : bslli2 (maddubs127 x) = 127 * (x % 2 ^ 8) * 2 ^ 16 := by
    simp only [bslli2, maddubs127, P] at *
    omega
  simp only [mul_2_exp_neg_8, hb, srli8, asSigned32, P] at *
  split_ifs <;> omega

/-- For canonical input, `mul_neg_2_exp_neg_8` computes exactly
(127 * (input & 0xFF)) << 16 - input >> 8 (no 32-bit wrap occurs). -/
lemma mul_neg_2_exp_neg_8_val (x : ℤ) (hx0 : 0 ≤ x) (hxP : x < P) :
    mul_neg_2_exp_neg_8 x = 127 * (x % 2 ^ 8) * 2 ^ 16 - x / 2 ^ 8 := by
  have hb : bslli2 (maddubs127 x) = 127 * (x % 2 ^ 8) * 2 ^ 16 := by
    simp only [bslli2, maddubs127, P] at *
    omega
  simp only [mul_neg_2_exp_neg_8, hb, srli8, asSigned32, P] at *
  split_ifs <;> omega

/-- C3: for canonical x, `mul_2_exp_neg_8 x` is congruent to x * 2^-8
modulo P (stated multiplied through by 2^8) and lies in (-P, P); the
negated variant is congruent to -x * 2^-8 in the same interval. -/
theorem mul_2_exp_neg_8_correct (x : ℤ) (hx0 : 0 ≤ x) (hxP : x < P) :
    2 ^ 8 * mul_2_exp_neg_8 x % P = x % P ∧
    -P < mul_2_exp_neg_8 x ∧ mul_2_exp_neg_8 x < P ∧
    2 ^ 8 * mul_neg_2_exp_neg_8 x % P = -x % P ∧
    -P < mul_neg_2_exp_neg_8 x ∧ mul_neg_2_exp_neg_8 x < P := by
  rw [mul_2_exp_neg_8_val x hx0 hxP, mul_neg_2_exp_neg_8_val x hx0 hxP]
  simp only [P] at *
  omega

/-- Witness for C3 at x = 123456789. -/
theorem mul_2_exp_neg_8_correct_witness :
    2 ^ 8 * mul_2_exp_neg_8 123456789 % P = 123456789 % P ∧
    -P < mul_2_exp_neg_8 123456789 ∧ mul_2_exp_neg_8 123456789 < P ∧
    2 ^ 8 * mul_neg_2_exp_neg_8 123456789 % P = -123456789 % P ∧
    -P < mul_neg_2_exp_neg_8 123456789 ∧ mul_neg_2_exp_neg_8 123456789 < P :=
  mul_2_exp_neg_8_correct 123456789 (by norm_num) (by norm_num [P])

/-- Modelled from the spec: the p3_monty_31 lane `add` primitive (not under
src/): modular addition of two canonical lanes, add then conditionally
subtract P. -/
def add (a b : ℤ) : ℤ := if a + b < P then a + b else a + b - P

/-- Modelled from the spec: the p3_monty_31 lane `sub` primitive (not under
src/): modular subtraction of two canonical lanes, subtract then
conditionally add P. -/
def sub (a b : ℤ) : ℤ := if b ≤ a then a - b else a - b + P

/-- Modelled from the spec: the p3_monty_31 `halve_avx2` primitive (not
under src/): x/2 mod P via a single parity-dependent correction. -/
def halve_avx2 (x : ℤ) : ℤ := if x % 2 = 0 then x / 2 else (x + P) / 2

/-- Modelled from the spec: the p3_monty_31 `signed_add_avx2` primitive
(not under src/): add a canonical first operand to a signed value in
(-P, P) and reduce to canonical form. -/
def signed_add_avx2 (s x : ℤ) : ℤ :=
  if s + x < 0 then s + x + P else if P ≤ s + x then s + x - P else s + x

/-- Modelled from the spec: the p3_monty_31 `mul_2_exp_neg_n_avx2`
primitive (not under src/): for P = 127 * 2^24 + 1, multiplication of a
canonical lane by 2^-n as (input >> n) - 127 * (input & (2^n - 1)) << (24 - n),
a signed value in (-P, P). -/
def mul_2_exp_neg_n_avx2 (n : ℕ) (x : ℤ) : ℤ :=
  x / 2 ^ n - 127 * (x % 2 ^ n) * 2 ^ (24 - n)

/-- Modelled from the spec: negated variant of `mul_2_exp_neg_n_avx2`. -/
def mul_neg_2_exp_neg_n_avx2 (n : ℕ) (x : ℤ) : ℤ :=
  127 * (x % 2 ^ n) * 2 ^ (24 - n) - x / 2 ^ n

/-- Modelled from the spec: the p3_monty_31
`mul_2_exp_neg_two_adicity_avx2` primitive (not under src/): multiplication
of a canonical lane by 2^-24 as (input >> 24) - 127 * (input & (2^24 - 1)),
a signed value in (-P, P). -/
def mul_2_exp_neg_two_adicity_avx2 (x : ℤ) : ℤ :=
  x / 2 ^ 24 - 127 * (x % 2 ^ 24)

/-- Modelled from the spec: negated variant of
`mul_2_exp_neg_two_adicity_avx2`. -/
def mul_neg_2_exp_neg_two_adicity_avx2 (x : ℤ) : ℤ :=
  127 * (x % 2 ^ 24) - x / 2 ^ 24

/-- Canonical representative of 1/2 modulo P. -/
def inv2 : ℤ := 1065353217

/-- Canonical representative of 1/4 modulo P. -/
def inv4 : ℤ := 1598029825

/-- Canonical representative of 1/8 modulo P. -/
def inv8 : ℤ := 1864368129

/-- Canonical representative of 1/16 modulo P. -/
def inv16 : ℤ := 1997537281

/-- Canonical representative of 1/32 modulo P. -/
def inv32 : ℤ := 2064121857

/-- Canonical representative of 1/64 modulo P. -/
def inv64 : ℤ := 2097414145

/-- Canonical representative of 1/2^7 modulo P. -/
def inv128 : ℤ := 2114060289

/-- Canonical representative of 1/2^8 modulo P. -/
def inv256 : ℤ := 2122383361

/-- Canonical representative of 1/2^9 modulo P. -/
def inv512 : ℤ := 2126544897

/-- Canonical representative of 1/2^24 modulo P (equal to P - 127). -/
def invTwoPow24 : ℤ := 2130706306

/-- The width-16 diagonal D = [-2, 1, 2, 1/2, 3, 4, -1/2, -3, -4, 1/2^8,
-1/2^8, 1/8, -1/8, -1/16, 1/2^24, -1/2^24], entries as signed integers with
the fractions replaced by canonical modular inverses (index 0 is handled by
the s-box round and never read by the layer below). -/
def D16vals : List ℤ :=
  [-2, 1, 2, inv2, 3, 4, -inv2, -3, -4, inv256, -inv256, inv8, -inv8,
   -inv16, invTwoPow24, -invTwoPow24]

/-- The width-16 diagonal as a function on full-state indices. -/
def D16 (i : Fin 16) : ℤ := D16vals.getD i.val 0

/-- Lane i of `diagonal_mul` for width 16 (the input array holds the last
15 lanes of the state; each lane depends only on itself, so the array
transformation is the pointwise application of this function). -/
def diagonal_mul_16_lane (i : ℕ) (x : ℤ) : ℤ :=
  match i with
  | 0 => x
  | 1 => add x x
  | 2 => halve_avx2 x
  | 3 => add (add x x) x
  | 4 => add (add x x) (add x x)
  | 5 => halve_avx2 x
  | 6 => add (add x x) x
  | 7 => add (add x x) (add x x)
  | 8 => mul_2_exp_neg_8 x
  | 9 => mul_neg_2_exp_neg_8 x
  | 10 => mul_2_exp_neg_n_avx2 3 x
  | 11 => mul_neg_2_exp_neg_n_avx2 3 x
  | 12 => mul_neg_2_exp_neg_n_avx2 4 x
  | 13 => mul_2_exp_neg_two_adicity_avx2 x
  | _ => mul_neg_2_exp_neg_two_adicity_avx2 x

/-- The `diagonal_mul` transformation for width 16 on the 15-lane array. -/
def diagonal_mul_16 (input : Fin 15 → ℤ) : Fin 15 → ℤ :=
  fun i => diagonal_mul_16_lane i.val (input i)

/-- Lane i of `add_sum` for width 16: indices 0..4 use `add`, 5..7 use
`sub` (their true diagonal entries are negative but `diagonal_mul` emitted
the positive magnitude), 8.. use `signed_add_avx2` (their `diagonal_mul`
output may be negative). -/
def add_sum_16_lane (i : ℕ) (sum x : ℤ) : ℤ :=
  if i < 5 then add sum x else if i < 8 then sub sum x
  else signed_add_avx2 sum x

/-- The `add_sum` transformation for width 16 on the 15-lane array. -/
def add_sum_16 (input : Fin 15 → ℤ) (sum : ℤ) : Fin 15 → ℤ :=
  fun i => add_sum_16_lane i.val sum (input i)

/-- Per-lane correctness of the width-16 composition: for canonical sum and
lane value, lane i of `add_sum` applied to lane i of `diagonal_mul` is
D16[i+1]*x + sum in canonical form. -/
lemma lane16_correct (s x : ℤ) (hs0 : 0 ≤ s) (hs1 : s < P)
    (hx0 : 0 ≤ x) (hx1 : x < P) (i : Fin 15) :
    add_sum_16_lane i.val s (diagonal_mul_16_lane i.val x)
      = (s + D16 i.succ * x) % P := by
  have h8 := mul_2_exp_neg_8_val x hx0 hx1
  have h9 := mul_neg_2_exp_neg_8_val x hx0 hx1
  fin_cases i <;>
    simp only [add_sum_16_lane, diagonal_mul_16_lane, D16, D16vals,
      Fin.succ, Fin.val, List.getD, List.getElem?_cons_zero,
      List.getElem?_cons_succ, add, sub, halve_avx2, signed_add_avx2,
      mul_2_exp_neg_n_avx2, mul_neg_2_exp_neg_n_avx2,
      mul_2_exp_neg_two_adicity_avx2, mul_neg_2_exp_neg_two_adicity_avx2,
      h8, h9, inv2, inv4, inv8, inv16, inv32, inv64, inv128, inv256,
      inv512, invTwoPow24, P] at * <;>
    norm_num <;> split_ifs <;> omega

/-- The width-24 diagonal D = [-2, 1, 2, 1/2, 3, 4, -1/2, -3, -4, 1/2^8,
-1/2^8, 1/4, 1/8, -1/8, 1/16, -1/16, 1/32, -1/32, 1/64, -1/64, -1/2^7,
-1/2^9, 1/2^24, -1/2^24], entries as signed integers with the fractions
replaced by canonical modular inverses. -/
def D24vals : List ℤ :=
  [-2, 1, 2, inv2, 3, 4, -inv2, -3, -4, inv256, -inv256, inv4, inv8,
   -inv8, inv16, -inv16, inv32, -inv32, inv64, -inv64, -inv128, -inv512,
   invTwoPow24, -invTwoPow24]

/-- The width-24 diagonal as a function on full-state indices. -/
def D24 (i : Fin 24) : ℤ := D24vals.getD i.val 0

/-- Lane i of `diagonal_mul` for width 24 (the input array holds the last
23 lanes of the state). -/
def diagonal_mul_24_lane (i : ℕ) (x : ℤ) : ℤ :=
  match i with
  | 0 => x
  | 1 => add x x
  | 2 => halve_avx2 x
  | 3 => add (add x x) x
  | 4 => add (add x x) (add x x)
  | 5 => halve_avx2 x
  | 6 => add (add x x) x
  | 7 => add (add x x) (add x x)
  | 8 => mul_2_exp_neg_8 x
  | 9 => mul_neg_2_exp_neg_8 x
  | 10 => mul_2_exp_neg_n_avx2 2 x
  | 11 => mul_2_exp_neg_n_avx2 3 x
  | 12 => mul_neg_2_exp_neg_n_avx2 3 x
  | 13 => mul_2_exp_neg_n_avx2 4 x
  | 14 => mul_neg_2_exp_neg_n_avx2 4 x
  | 15 => mul_2_exp_neg_n_avx2 5 x
  | 16 => mul_neg_2_exp_neg_n_avx2 5 x
  | 17 => mul_2_exp_neg_n_avx2 6 x
  | 18 => mul_neg_2_exp_neg_n_avx2 6 x
  | 19 => mul_neg_2_exp_neg_n_avx2 7 x
  | 20 => mul_neg_2_exp_neg_n_avx2 9 x
  | 21 => mul_2_exp_neg_two_adicity_avx2 x
  | _ => mul_neg_2_exp_neg_two_adicity_avx2 x

/-- The `diagonal_mul` transformation for width 24 on the 23-lane array. -/
def diagonal_mul_24 (input : Fin 23 → ℤ) : Fin 23 → ℤ :=
  fun i => diagonal_mul_24_lane i.val (input i)

/-- Lane i of `add_sum` for width 24: indices 0..4 use `add`, 5..7 use
`sub`, 8.. use `signed_add_avx2` (same grouping as width 16). -/
def add_sum_24_lane (i : ℕ) (sum x : ℤ) : ℤ :=
  if i < 5 then add sum x else if i < 8 then sub sum x
  else signed_add_avx2 sum x

/-- The `add_sum` transformation for width 24 on the 23-lane array. -/
def add_sum_24 (input : Fin 23 → ℤ) (sum : ℤ) : Fin 23 → ℤ :=
  fun i => add_sum_24_lane i.val sum (input i)

/-- Per-lane correctness of the width-24 composition: for canonical sum and
lane value, lane i of `add_sum` applied to lane i of `diagonal_mul` is
D24[i+1]*x + sum in canonical form. -/
lemma lane24_correct (s x : ℤ) (hs0 : 0 ≤ s) (hs1 : s < P)
    (hx0 : 0 ≤ x) (hx1 : x < P) (i : Fin 23) :
    add_sum_24_lane i.val s (diagonal_mul_24_lane i.val x)
      = (s + D24 i.succ * x) % P := by
  have h8 := mul_2_exp_neg_8_val x hx0 hx1
  have h9 := mul_neg_2_exp_neg_8_val x hx0 hx1
  fin_cases i <;>
    simp only [add_sum_24_lane, diagonal_mul_24_lane, D24, D24vals,
      Fin.succ, Fin.val, List.getD, List.getElem?_cons_zero,
      List.getElem?_cons_succ, add, sub, halve_avx2, signed_add_avx2,
      mul_2_exp_neg_n_avx2, mul_neg_2_exp_neg_n_avx2,
      mul_2_exp_neg_two_adicity_avx2, mul_neg_2_exp_neg_two_adicity_avx2,
      h8, h9, inv2, inv4, inv8, inv16, inv32, inv64, inv128, inv256,
      inv512, invTwoPow24, P] at * <;>
    norm_num <;> split_ifs <;> omega

/-- C1: for both widths, for every state of canonical lanes and every
canonical sum equal to the row sum of the full state, `diagonal_mul` on the
last WIDTH-1 lanes followed by `add_sum` with that sum transforms lane i to
D[i]*input[i] + sum modulo P (full-state index 0 excluded, fixed
add/sub/signed-add grouping); the fractional diagonal entries are the
modular inverses pinned by the first conjunct. -/
theorem diag_add_sum_correct :
    ((2 * inv2) % P = 1 ∧ (4 * inv4) % P = 1 ∧ (8 * inv8) % P = 1 ∧
     (16 * inv16) % P = 1 ∧ (32 * inv32) % P = 1 ∧ (64 * inv64) % P = 1 ∧
     (128 * inv128) % P = 1 ∧ (256 * inv256) % P = 1 ∧
     (512 * inv512) % P = 1 ∧ (2 ^ 24 * invTwoPow24) % P = 1) ∧
    (∀ state : Fin 16 → ℤ, (∀ i, 0 ≤ state i ∧ state i < P) →
      ∀ sum : ℤ, sum = (∑ i, state i) % P →
      ∀ i : Fin 15,
        add_sum_16 (diagonal_mul_16 fun j => state j.succ) sum i
          = (sum + D16 i.succ * state i.succ) % P) ∧
    (∀ state : Fin 24 → ℤ, (∀ i, 0 ≤ state i ∧ state i < P) →
      ∀ sum : ℤ, sum = (∑ i, state i) % P →
      ∀ i : Fin 23,
        add_sum_24 (diagonal_mul_24 fun j => state j.succ) sum i
          = (sum + D24 i.succ * state i.succ) % P) := by
  refine ⟨by decide, ?_, ?_⟩
  · intro state hst sum hsum i
    have hs0 : 0 ≤ sum := hsum ▸ Int.emod_nonneg _ (by norm_num [P])
    have hs1 : sum < P := hsum ▸ Int.emod_lt_of_pos _ (by norm_num [P])
    exact lane16_correct sum (state i.succ) hs0 hs1 (hst i.succ).1
      (hst i.succ).2 i
  · intro state hst sum hsum i
    have hs0 : 0 ≤ sum := hsum ▸ Int.emod_nonneg _ (by norm_num [P])
    have hs1 : sum < P := hsum ▸ Int.emod_lt_of_pos _ (by norm_num [P])
    exact lane24_correct sum (state i.succ) hs0 hs1 (hst i.succ).1
      (hst i.succ).2 i

/-- Witness for C1 at the constant state 7 (row sums 112 and 168) and the
signed-add lanes with full-state indices 10 and 21. -/
theorem diag_add_sum_correct_witness :
    add_sum_16 (diagonal_mul_16 fun _ => (7 : ℤ)) 112 ⟨9, by norm_num⟩
      = (112 + D16 ⟨10, by norm_num⟩ * 7) % P ∧
    add_sum_24 (diagonal_mul_24 fun _ => (7 : ℤ)) 168 ⟨20, by norm_num⟩
      = (168 + D24 ⟨21, by norm_num⟩ * 7) % P :=
  ⟨diag_add_sum_correct.2.1 (fun _ => 7) (fun _ => by norm_num [P]) 112
      (by decide) ⟨9, by norm_num⟩,
    diag_add_sum_correct.2.2 (fun _ => 7) (fun _ => by norm_num [P]) 168
      (by decide) ⟨20, by norm_num⟩⟩

/-- Modelled from the spec: the scalar reference implementation of the
width-16 internal linear layer on the last 15 lanes — each lane i of the
full state (i >= 1) becomes D[i]*state[i] + sum in canonical form, where
sum is the row sum of the full state. -/
def scalar_internal_16 (state : Fin 16 → ℤ) (sum : ℤ) : Fin 15 → ℤ :=
  fun i => (sum + D16 i.succ * state i.succ) % P

/-- Modelled from the spec: the scalar reference implementation of the
width-24 internal linear layer on the last 23 lanes. -/
def scalar_internal_24 (state : Fin 24 → ℤ) (sum : ℤ) : Fin 23 → ℤ :=
  fun i => (sum + D24 i.succ * state i.succ) % P

/-- C2: for every canonical input state, the vectorized diagonal-layer-plus
row-sum composition produces output identical, lane for lane, to the scalar
reference implementation, for both width 16 and width 24 (taking for both
the canonical row sum of the full state). -/
theorem avx2_matches_scalar :
    (∀ state : Fin 16 → ℤ, (∀ i, 0 ≤ state i ∧ state i < P) →
      add_sum_16 (diagonal_mul_16 fun j => state j.succ) ((∑ i, state i) % P)
        = scalar_internal_16 state ((∑ i, state i) % P)) ∧
    (∀ state : Fin 24 → ℤ, (∀ i, 0 ≤ state i ∧ state i < P) →
      add_sum_24 (diagonal_mul_24 fun j => state j.succ) ((∑ i, state i) % P)
        = scalar_internal_24 state ((∑ i, state i) % P)) := by
  constructor
  · intro state hst
    funext i
    exact lane16_correct _ _ (Int.emod_nonneg _ (by norm_num [P]))
      (Int.emod_lt_of_pos _ (by norm_num [P])) (hst i.succ).1
      (hst i.succ).2 i
  · intro state hst
    funext i
    exact lane24_correct _ _ (Int.emod_nonneg _ (by norm_num [P]))
      (Int.emod_lt_of_pos _ (by norm_num [P])) (hst i.succ).1
      (hst i.succ).2 i

/-- Witness for C2 at the constant state 7 for both widths. -/
theorem avx2_matches_scalar_witness :
    add_sum_16 (diagonal_mul_16 fun _j => (7 : ℤ))
        ((∑ _i : Fin 16, (7 : ℤ)) % P)
      = scalar_internal_16 (fun _ => 7) ((∑ _i : Fin 16, (7 : ℤ)) % P) ∧
    add_sum_24 (diagonal_mul_24 fun _j => (7 : ℤ))
        ((∑ _i : Fin 24, (7 : ℤ)) % P)
      = scalar_internal_24 (fun _ => 7) ((∑ _i : Fin 24, (7 : ℤ)) % P) :=
  ⟨avx2_matches_scalar.1 (fun _ => 7) (fun _ => by norm_num [P]),
    avx2_matches_scalar.2 (fun _ => 7) (fun _ => by norm_num [P])⟩

end KoalaBear

namespace Challenger

/-- The duplex challenger state: a persistent sponge state of WIDTH field
elements, transient input and output buffers, and the owned permutation
(`P: CryptographicPermutation<[F; WIDTH]>` modelled as a function on
states). -/
structure DuplexChallenger (F : Type) (W R : ℕ) where
  sponge_state : Fin W → F
  input_buffer : List F
  output_buffer : List F
  permutation : (Fin W → F) → Fin W → F

variable {F : Type} {W R : ℕ}

/-- Constructor `DuplexChallenger::new`: default sponge state, empty buffers. -/
def new [Inhabited F] (permutation : (Fin W → F) → Fin W → F) :
    DuplexChallenger F W R :=
  ⟨fun _ => default, [], [], permutation⟩

/-- The sponge state after draining the input buffer: the first
`input_buffer.len()` entries are overwritten by the drained values in
order, higher indices are untouched. -/
def drained (c : DuplexChallenger F W R) : Fin W → F :=
  fun i =>
    if h : i.val < c.input_buffer.length then c.input_buffer.get ⟨i.val, h⟩
    else c.sponge_state i

/-- Internal `duplexing`: assert `input_buffer.len() <= RATE` (fatal otherwise),
drain the input buffer into the low sponge lanes, apply the permutation in
place, then refill the output buffer with `sponge_state[..RATE]` in natural
order (indexing past WIDTH is likewise fatal). -/
def duplexing (c : DuplexChallenger F W R) :
    Option (DuplexChallenger F W R) :=
  if c.input_buffer.length ≤ R then
    if R ≤ W then
      some ⟨c.permutation (drained c), [],
        (List.ofFn (c.permutation (drained c))).take R, c.permutation⟩
    else none
  else none

/-- Operation `observe(value)`: clear the output buffer, push the value onto the
input buffer, and duplex exactly when the input buffer reaches RATE. -/
def observe (c : DuplexChallenger F W R) (value : F) :
    Option (DuplexChallenger F W R) :=
  let c1 : DuplexChallenger F W R :=
    ⟨c.sponge_state, c.input_buffer ++ [value], [], c.permutation⟩
  if c1.input_buffer.length = R then duplexing c1 else some c1

/-- Pop the last element of the output buffer (`Vec::pop` with `expect`:
empty is fatal). -/
def popOutput (c : DuplexChallenger F W R) :
    Option (F × DuplexChallenger F W R) :=
  match c.output_buffer.getLast? with
  | none => none
  | some v =>
      some (v, ⟨c.sponge_state, c.input_buffer, c.output_buffer.dropLast,
        c.permutation⟩)

/-- One base-field coordinate of `sample`: duplex if there are buffered
inputs or the output buffer is exhausted, then pop the last output. -/
def sampleStep (c : DuplexChallenger F W R) :
    Option (F × DuplexChallenger F W R) :=
  (if !c.input_buffer.isEmpty || c.output_buffer.isEmpty then duplexing c
   else some c).bind popOutput

/-- Operation `sample() -> EF` for a degree-d extension: produce the d base-field
coordinates independently, in order (`EF::from_base_fn`). -/
def sample (d : ℕ) (c : DuplexChallenger F W R) :
    Option (List F × DuplexChallenger F W R) :=
  match d with
  | 0 => some ([], c)
  | d + 1 =>
      match sampleStep c with
      | none => none
      | some (x, c1) =>
          match sample d c1 with
          | none => none
          | some (xs, c2) => some (x :: xs, c2)

/-- Operation `sample_bits(bits)`: check `bits < usize::BITS` (64) and
`(1 << bits) < F::ORDER_U64` (violations fatal), sample one base-field
element, take its canonical representative and mask to the low bits. -/
def sample_bits (toCanonical : F → ℕ) (order : ℕ) (bits : ℕ)
    (c : DuplexChallenger F W R) : Option (ℕ × DuplexChallenger F W R) :=
  if bits < 64 ∧ 2 ^ bits < order then
    match sampleStep c with
    | none => none
    | some (f, c1) => some (toCanonical f &&& (2 ^ bits - 1), c1)
  else none

/-- Repeated `observe` of an ordered sequence: element-wise single-value observe. -/
def observeList (c : DuplexChallenger F W R) :
    List F → Option (DuplexChallenger F W R)
  | [] => some c
  | v :: vs => (observe c v).bind (observeList · vs)

/-- Operation `observe(Vec<Vec<F>>)`: the nested for loops, outer then inner. -/
def observeNested (c : DuplexChallenger F W R) :
    List (List F) → Option (DuplexChallenger F W R)
  | [] => some c
  | vs :: vss => (observeList c vs).bind (observeNested · vss)

/-- C4: `duplexing` on a state with `input_buffer.len() = L <= RATE`
(and RATE <= WIDTH) drains the input buffer into `sponge_state[0..L]`
leaving `sponge_state[L..]` unchanged, permutes the full state in place,
and replaces the output buffer with `sponge_state[0..RATE]` in natural
order; `L > RATE` is fatal. -/
theorem duplexing_correct (c : DuplexChallenger F W R) (hRW : R ≤ W) :
    (c.input_buffer.length ≤ R →
      duplexing c = some
        ⟨c.permutation (drained c), [],
          List.ofFn (fun j : Fin R =>
            c.permutation (drained c) (Fin.castLE hRW j)),
          c.permutation⟩ ∧
      (∀ (i : Fin W) (h : i.val < c.input_buffer.length),
          drained c i = c.input_buffer.get ⟨i.val, h⟩) ∧
      (∀ i : Fin W, c.input_buffer.length ≤ i.val →
          drained c i = c.sponge_state i)) ∧
    (R < c.input_buffer.length → duplexing c = none) := by
  constructor
  · intro hL
    refine ⟨?_, ?_, ?_⟩
    · simp only [duplexing, if_pos hL, if_pos hRW]
      rw [← Fin.ofFn_take_eq_take_ofFn hRW]
      rfl
    · intro i h
      simp [drained, h]
    · intro i h
      simp [drained, Nat.not_lt.mpr h]
  · intro hL
    simp [duplexing, Nat.not_le.mpr hL]

/-- Concrete challenger used by the C4 witness. -/
def cW4 : DuplexChallenger ℕ 3 2 := ⟨fun i => (i.val : ℕ), [7], [9], id⟩

/-- Witness for C4: duplexing the concrete state cW4. -/
theorem duplexing_correct_witness :
    duplexing cW4 = some
      ⟨cW4.permutation (drained cW4), [],
        List.ofFn (fun j : Fin 2 =>
          cW4.permutation (drained cW4) (Fin.castLE (by norm_num) j)),
        cW4.permutation⟩ :=
  (((duplexing_correct cW4 (by norm_num)).1) (by decide)).1

/-- C5: `observe(value)` clears the output buffer, appends the value to
the input buffer, and duplexes exactly when the input buffer thereby
reaches RATE; a sample issued right after an observe is independent of
whatever was buffered in the output buffer before the observe (it never
returns a value computed before that observation). -/
theorem observe_correct (c : DuplexChallenger F W R) (v : F) :
    (c.input_buffer.length + 1 ≠ R →
      observe c v =
        some ⟨c.sponge_state, c.input_buffer ++ [v], [], c.permutation⟩) ∧
    (c.input_buffer.length + 1 = R →
      observe c v =
        duplexing ⟨c.sponge_state, c.input_buffer ++ [v], [],
          c.permutation⟩) ∧
    (∀ ob : List F,
      (observe ⟨c.sponge_state, c.input_buffer, ob, c.permutation⟩ v).bind
          sampleStep
        = (observe c v).bind sampleStep) := by
  have hl : (c.input_buffer ++ [v]).length = c.input_buffer.length + 1 := by
    simp
  refine ⟨?_, ?_, ?_⟩
  · intro h
    simp only [observe, hl]
    rw [if_neg h]
  · intro h
    simp only [observe, hl]
    rw [if_pos h]
  · intro ob
    rfl

/-- Concrete challenger used by the C5 witness. -/
def cW5 : DuplexChallenger ℕ 2 2 := ⟨fun _ => 0, [], [9], id⟩

/-- Witness for C5: observing 4 on cW5 (input stays below RATE, so no
duplexing), and independence from a previously buffered output 77. -/
theorem observe_correct_witness :
    observe cW5 4 =
      some ⟨cW5.sponge_state, cW5.input_buffer ++ [4], [],
        cW5.permutation⟩ ∧
    (observe ⟨cW5.sponge_state, cW5.input_buffer, [77],
        cW5.permutation⟩ 4).bind sampleStep
      = (observe cW5 4).bind sampleStep :=
  ⟨(observe_correct cW5 4).1 (by decide),
    (observe_correct cW5 4).2.2 [77]⟩

/-- Observing values while the input buffer stays strictly below RATE
never duplexes: the values accumulate in the input buffer and the output
buffer ends up cleared. -/
lemma observeList_no_duplex (vs : List F) (c : DuplexChallenger F W R)
    (hout : c.output_buffer = [])
    (hlen : c.input_buffer.length + vs.length < R) :
    observeList c vs =
      some ⟨c.sponge_state, c.input_buffer ++ vs, [], c.permutation⟩ := by
  induction vs generalizing c with
  | nil =>
    obtain ⟨s, ib, ob, p⟩ := c
    simp only at hout
    subst hout
    simp [observeList]
  | cons v vs ih =>
    have hne : c.input_buffer.length + 1 ≠ R := by
      simp only [List.length_cons] at hlen
      omega
    have hobs : observe c v =
        some ⟨c.sponge_state, c.input_buffer ++ [v], [], c.permutation⟩ := by
      simp only [observe, List.length_append, List.length_cons,
        List.length_nil]
      rw [if_neg (by omega)]
    have hrec := ih
      ⟨c.sponge_state, c.input_buffer ++ [v], [], c.permutation⟩ rfl
      (by
        simp only [List.length_append, List.length_cons, List.length_nil]
        simp only [List.length_cons] at hlen
        omega)
    simp only [observeList, hobs, Option.some_bind, hrec,
      Option.some.injEq]
    simp

/-- Every successful degree-d sample returns exactly d base-field
coordinates. -/
lemma sample_length (d : ℕ) (c : DuplexChallenger F W R)
    (xs : List F) (c2 : DuplexChallenger F W R)
    (h : sample d c = some (xs, c2)) : xs.length = d := by
  induction d generalizing c xs c2 with
  | zero =>
    simp only [sample, Option.some.injEq, Prod.mk.injEq] at h
    simp [← h.1]
  | succ d ih =>
    simp only [sample] at h
    cases hstep : sampleStep c with
    | none => rw [hstep] at h; cases h
    | some pr =>
      obtain ⟨x, c1⟩ := pr
      rw [hstep] at h
      simp only at h
      cases hrec : sample d c1 with
      | none => rw [hrec] at h; cases h
      | some qr =>
        obtain ⟨xs1, c21⟩ := qr
        rw [hrec] at h
        simp only [Option.some.injEq, Prod.mk.injEq] at h
        have := ih c1 xs1 c21 hrec
        simp [← h.1, this]

/-- C6: each base-field coordinate of `sample` duplexes iff the input
buffer is non-empty or the output buffer is empty, then pops the last
output; a successful degree-d sample yields d coordinates; on a fresh
challenger that observed fewer than RATE values the output buffer is empty
so the first coordinate duplexes before returning; and an empty output
buffer after the refill is fatal (the step returns none). -/
theorem sample_correct [Inhabited F]
    (perm : (Fin W → F) → Fin W → F) (c : DuplexChallenger F W R) :
    ((!c.input_buffer.isEmpty || c.output_buffer.isEmpty) = true →
      sampleStep c = (duplexing c).bind popOutput) ∧
    (c.input_buffer.isEmpty = true → c.output_buffer.isEmpty = false →
      sampleStep c = popOutput c) ∧
    (∀ d xs c2, sample d c = some (xs, c2) → xs.length = d) ∧
    (∀ vs : List F, vs.length < R →
      observeList (new (R := R) perm) vs =
        some (⟨fun _ => default, vs, [], perm⟩ : DuplexChallenger F W R) ∧
      ∀ c1 : DuplexChallenger F W R,
        observeList (new (R := R) perm) vs = some c1 →
          sampleStep c1 = (duplexing c1).bind popOutput) ∧
    (∀ c1, duplexing c = some c1 → c1.output_buffer = [] →
      (!c.input_buffer.isEmpty || c.output_buffer.isEmpty) = true →
      sampleStep c = none) := by
  refine ⟨?_, ?_, ?_, ?_, ?_⟩
  · intro h
    simp only [sampleStep, h]
    rfl
  · intro h1 h2
    simp only [sampleStep, h1, h2]
    rfl
  · exact fun d xs c2 h => sample_length d c xs c2 h
  · intro vs hvs
    have hobs : observeList (new (R := R) perm) vs =
        some (⟨fun _ => default, vs, [], perm⟩ : DuplexChallenger F W R) := by
      have := observeList_no_duplex vs (new (R := R) perm) rfl
        (by simpa [new] using hvs)
      simpa [new] using this
    refine ⟨hobs, ?_⟩
    intro c1 h1
    rw [hobs] at h1
    obtain rfl := Option.some.inj h1
    simp only [sampleStep, List.isEmpty_nil, Bool.or_true]
    rfl
  · intro c1 hdup hout hcond
    have hstep : sampleStep c = popOutput c1 := by
      simp [sampleStep, hcond, hdup]
    rw [hstep]
    simp [popOutput, hout]

/-- Concrete challenger used by the C6 witness. -/
def cW6 : DuplexChallenger ℕ 3 2 := ⟨fun _ => 0, [], [4], id⟩

/-- Witness for C6: on cW6 (no buffered input, one buffered output) a
sample coordinate pops without duplexing; a fresh challenger observing
one value (fewer than RATE = 2) accumulates it without duplexing. -/
theorem sample_correct_witness :
    sampleStep cW6 = popOutput cW6 ∧
    observeList (new (F := ℕ) (W := 3) (R := 2) id) [8] =
      some ⟨fun _ => default, [8], [], id⟩ :=
  ⟨(sample_correct id cW6).2.1 rfl rfl,
    ((sample_correct id cW6).2.2.2.1 [8] (by norm_num)).1⟩

/-- One call of the challenger's public surface: observe a value, sample a
degree-d extension element, or sample a masked integer. -/
inductive Call (F : Type) where
  | obs (v : F)
  | sam (d : ℕ)
  | sbits (bits : ℕ)

/-- One return value of the call surface: the base-field coordinates of a
sampled extension element, or a sampled masked integer. -/
inductive Out (F : Type) where
  | vals (xs : List F)
  | num (n : ℕ)

/-- Big-step execution of a call sequence against a challenger state,
recording the values returned by sample and sample_bits calls. -/
inductive Exec (toCan : F → ℕ) (order : ℕ) :
    DuplexChallenger F W R → List (Call F) → List (Out F) →
    DuplexChallenger F W R → Prop where
  | nil (c : DuplexChallenger F W R) : Exec toCan order c [] [] c
  | obs {c : DuplexChallenger F W R} {v : F} {c1 cs os c2} :
      observe c v = some c1 → Exec toCan order c1 cs os c2 →
      Exec toCan order c (Call.obs v :: cs) os c2
  | sam {c : DuplexChallenger F W R} {d : ℕ} {xs c1 cs os c2} :
      sample d c = some (xs, c1) → Exec toCan order c1 cs os c2 →
      Exec toCan order c (Call.sam d :: cs) (Out.vals xs :: os) c2
  | sbits {c : DuplexChallenger F W R} {bits : ℕ} {n c1 cs os c2} :
      sample_bits toCan order bits c = some (n, c1) →
      Exec toCan order c1 cs os c2 →
      Exec toCan order c (Call.sbits bits :: cs) (Out.num n :: os) c2

/-- Execution is a deterministic relation: a state and a call sequence
determine the outputs and the final state. -/
lemma exec_deterministic {toCan : F → ℕ} {order : ℕ}
    {c : DuplexChallenger F W R} {cs : List (Call F)}
    {os1 os2 : List (Out F)} {c1 c2 : DuplexChallenger F W R}
    (h1 : Exec toCan order c cs os1 c1)
    (h2 : Exec toCan order c cs os2 c2) : os1 = os2 ∧ c1 = c2 := by
  induction h1 generalizing os2 c2 with
  | nil _ =>
    cases h2
    exact ⟨rfl, rfl⟩
  | obs he _ ih =>
    cases h2 with
    | obs he2 htail =>
      obtain rfl := Option.some.inj (he.symm.trans he2)
      exact ih htail
  | sam he _ ih =>
    cases h2 with
    | sam he2 htail =>
      obtain ⟨rfl, rfl⟩ := Prod.mk.injEq .. ▸ Option.some.inj
        (he.symm.trans he2)
      obtain ⟨h3, h4⟩ := ih htail
      exact ⟨by rw [h3], h4⟩
  | sbits he _ ih =>
    cases h2 with
    | sbits he2 htail =>
      obtain ⟨rfl, rfl⟩ := Prod.mk.injEq .. ▸ Option.some.inj
        (he.symm.trans he2)
      obtain ⟨h3, h4⟩ := ih htail
      exact ⟨by rw [h3], h4⟩

/-- C7: two independently constructed challengers with the same
permutation, fed the same call sequence, produce identical sample and
sample_bits outputs (and identical final states): the challenger is a
deterministic function of its permutation and call sequence. -/
theorem challenger_deterministic [Inhabited F]
    (perm : (Fin W → F) → Fin W → F) (toCan : F → ℕ) (order : ℕ)
    (cs : List (Call F)) (os1 os2 : List (Out F))
    (c1 c2 : DuplexChallenger F W R)
    (h1 : Exec toCan order (new perm) cs os1 c1)
    (h2 : Exec toCan order (new perm) cs os2 c2) :
    os1 = os2 ∧ c1 = c2 :=
  exec_deterministic h1 h2

/-- Witness for C7: a concrete run (observe 5, then sample one coordinate,
then sample one masked bit) on a width-2 rate-1 challenger over ℕ with the
identity permutation. -/
theorem challenger_deterministic_witness :
    [Out.vals [(5 : ℕ)], Out.num (id 5 &&& (2 ^ 1 - 1))] =
      [Out.vals [(5 : ℕ)], Out.num (id 5 &&& (2 ^ 1 - 1))] := by
  have h : ∃ cF, Exec (F := ℕ) (W := 2) (R := 1) id 7 (new id)
      [Call.obs 5, Call.sam 1, Call.sbits 1]
      [Out.vals [5], Out.num (id 5 &&& (2 ^ 1 - 1))] cF :=
    ⟨_, Exec.obs rfl (Exec.sam rfl (Exec.sbits rfl (Exec.nil _)))⟩
  obtain ⟨cF, hF⟩ := h
  exact (challenger_deterministic id id 7
    [Call.obs 5, Call.sam 1, Call.sbits 1]
    [Out.vals [5], Out.num (id 5 &&& (2 ^ 1 - 1))]
    [Out.vals [5], Out.num (id 5 &&& (2 ^ 1 - 1))] cF cF hF hF).1

/-- C8: `sample_bits(bits)` aborts (returns none) when `bits` is at least
the machine-word bit width (64) or `2^bits` is at least the field order;
under the checked preconditions it samples one base-field element, takes
its canonical representative and masks it to the low `bits` bits, a value
in [0, 2^bits). -/
theorem sample_bits_correct (toCan : F → ℕ) (order bits : ℕ)
    (c : DuplexChallenger F W R) :
    (¬(bits < 64 ∧ 2 ^ bits < order) →
      sample_bits toCan order bits c = none) ∧
    (bits < 64 → 2 ^ bits < order →
      ∀ f : F, ∀ c1 : DuplexChallenger F W R,
        sampleStep c = some (f, c1) →
          sample_bits toCan order bits c =
            some (toCan f &&& (2 ^ bits - 1), c1) ∧
          toCan f &&& (2 ^ bits - 1) = toCan f % 2 ^ bits ∧
          toCan f &&& (2 ^ bits - 1) < 2 ^ bits) := by
  constructor
  · intro h
    simp [sample_bits, h]
  · intro hb ho f c1 hstep
    have hmask : toCan f &&& (2 ^ bits - 1) = toCan f % 2 ^ bits :=
      Nat.and_pow_two_sub_one_eq_mod (toCan f) bits
    refine ⟨?_, hmask, ?_⟩
    · simp [sample_bits, hb, ho, hstep]
    · rw [hmask]
      exact Nat.mod_lt _ (Nat.pos_pow_of_pos bits (by norm_num))

/-- Concrete challenger used by the C8 witness. -/
def cW8 : DuplexChallenger ℕ 2 1 := ⟨fun _ => 0, [], [6], id⟩

/-- The state cW8 after one sample step (the buffered 6 is popped). -/
def cW8a : DuplexChallenger ℕ 2 1 := ⟨fun _ => 0, [], [], id⟩

/-- Witness for C8: sampling 2 bits from cW8 with field order 7 pops the
buffered 6 and returns it masked to 2 bits. -/
theorem sample_bits_correct_witness :
    sample_bits id 7 2 cW8 = some (id 6 &&& (2 ^ 2 - 1), cW8a) ∧
    id 6 &&& (2 ^ 2 - 1) = id 6 % 2 ^ 2 ∧
    id 6 &&& (2 ^ 2 - 1) < 2 ^ 2 :=
  (sample_bits_correct id 7 2 cW8).2 (by norm_num) (by norm_num) 6 cW8a rfl

/-- Applying `observe` over a concatenated sequence observes the first part, then the
second. -/
lemma observeList_append (c : DuplexChallenger F W R) (xs ys : List F) :
    observeList c (xs ++ ys) =
      (observeList c xs).bind (observeList · ys) := by
  induction xs generalizing c with
  | nil => simp [observeList]
  | cons x xs ih =>
    simp only [List.cons_append, observeList]
    cases observe c x with
    | none => simp
    | some c1 => simp [ih]

/-- C9: observing a sequence of sequences leaves the challenger in exactly
the state reached by observing, one element at a time, the fully flattened
sequence in outer-then-inner order. -/
theorem observe_nested_eq_flatten (c : DuplexChallenger F W R)
    (vss : List (List F)) :
    observeNested c vss = observeList c vss.flatten := by
  induction vss generalizing c with
  | nil => rfl
  | cons vs vss ih =>
    rw [observeNested, List.flatten_cons, observeList_append]
    cases observeList c vs with
    | none => rfl
    | some c1 =>
      rw [Option.some_bind, Option.some_bind]
      exact ih c1

/-- Observing a nested sequence whose flattening is empty is a no-op. -/
lemma observeNested_nil_of_flatten_nil :
    ∀ (vss : List (List F)) (c : DuplexChallenger F W R),
      vss.flatten = [] → observeNested c vss = some c
  | [], _, _ => rfl
  | vs :: vss, c, h => by
    obtain ⟨h1, h2⟩ :=
      List.append_eq_nil.mp (by rwa [List.flatten_cons] at h)
    subst h1
    rw [observeNested, show observeList c [] = some c from rfl,
      Option.some_bind]
    exact observeNested_nil_of_flatten_nil vss c h2

/-- C10: observing an empty input (a zero-length array, or a sequence of
sequences whose flattening is empty) performs zero single-value observes
and leaves the whole challenger state unchanged; in particular the output
buffer is not cleared, so a sample issued right after still pops the last
previously buffered value. -/
theorem observe_empty_frame (c : DuplexChallenger F W R)
    (vss : List (List F)) (hj : vss.flatten = []) :
    observeList c [] = some c ∧
    observeNested c vss = some c ∧
    (c.input_buffer = [] → ∀ h : c.output_buffer ≠ [],
      (observeNested c vss).bind sampleStep
        = some (c.output_buffer.getLast h,
            ⟨c.sponge_state, c.input_buffer, c.output_buffer.dropLast,
              c.permutation⟩)) := by
  have hnested : observeNested c vss = some c :=
    observeNested_nil_of_flatten_nil vss c hj
  refine ⟨rfl, hnested, ?_⟩
  intro hin h
  have hcond : (!c.input_buffer.isEmpty || c.output_buffer.isEmpty)
      = false := by
    simp [hin, List.isEmpty_eq_false_iff_exists_mem.mpr
      (List.exists_mem_of_ne_nil _ h)]
  have hstep : sampleStep c = popOutput c := by
    simp [sampleStep, hcond]
  rw [hnested, Option.some_bind, hstep]
  simp only [popOutput, List.getLast?_eq_getLast_of_ne_nil h]

/-- Concrete challenger used by the C10 witness. -/
def cW10 : DuplexChallenger ℕ 2 2 := ⟨fun _ => 0, [], [3, 4], id⟩

/-- Witness for C10: observing [[], []] on cW10 changes nothing and the
next sample still pops the previously buffered 4. -/
theorem observe_empty_frame_witness :
    observeNested cW10 [[], []] = some cW10 ∧
    (observeNested cW10 [[], []]).bind sampleStep
      = some (cW10.output_buffer.getLast (by simp [cW10]),
          ⟨cW10.sponge_state, cW10.input_buffer,
            cW10.output_buffer.dropLast, cW10.permutation⟩) :=
  ⟨(observe_empty_frame cW10 [[], []] rfl).2.1,
    (observe_empty_frame cW10 [[], []] rfl).2.2 rfl (by simp [cW10])⟩

end Challenger
